import Mathlib

/-!
Verification development for the ai-pipelines repository.

We give a shallow embedding of the core components:
  * the sliding-window chunker (src/ai_pipelines/steps/chunk.py),
  * the execution context (src/ai_pipelines/context.py),
  * the JSONata-AST root-reference extractor and the static validator
    (src/ai_pipelines/validator.py),
  * the executor loop (src/ai_pipelines/executor.py) and the for_each
    scoping (src/ai_pipelines/steps/for_each.py),
  * the summarization scoring strategy (src/ai_pipelines/steps/evaluate.py).

External capabilities (the JSONata parser/evaluator, the Jinja2 parser, the
jsonschema validator, the LLM transport, the filesystem and the clock) are
modelled as parameters or as already-obtained results, following the
specification, which treats them as opaque collaborators.  Python `float`
arithmetic in the scoring code is modelled over the exact rationals; the
float literal 1e-10 is modelled as the rational 1/10^10 and Python
`round(x, 4)` as rounding `x * 10000` to the nearest integer (the concrete
inputs used in the theorems below are never at a half-way tie, where the
two conventions could differ).
-/

namespace AIPipelines

/-! ## Chunking (src/ai_pipelines/steps/chunk.py)

Python strings are modelled as `List Char`; the slice `text[pos : pos + n]`
is `(text.drop pos).take n`.  The dict `{"text": ..., "index": ...}` built
by `split_text_chunks` is modelled as the record `Chunk`.
-/

structure Chunk where
  text : List Char
  index : Nat
deriving DecidableEq, Repr

/-- Clamping step of `split_text_chunks`: `if overlap >= chunk_size:
overlap = chunk_size - 1`. -/
def clampOverlap (chunk_size overlap : Nat) : Nat :=
  if chunk_size ≤ overlap then chunk_size - 1 else overlap

/-- The `while pos < len(text)` loop body of `split_text_chunks`.

The Python loop does not terminate when `stride = 0`; after clamping, a
positive `chunk_size` always yields `stride ≥ 1`, and the guard
`0 < stride` below only cuts off the states on which the Python loop would
run forever (it never fires on any state reachable from
`split_text_chunks` with `chunk_size > 0`). -/
def chunkLoop (text : List Char) (chunk_size stride : Nat) (pos index : Nat) :
    List Chunk :=
  if h : 0 < stride ∧ pos < text.length then
    { text := (text.drop pos).take chunk_size, index := index } ::
      chunkLoop text chunk_size stride (pos + stride) (index + 1)
  else
    []
termination_by text.length - pos
decreasing_by omega

/-- `split_text_chunks(text, chunk_size, overlap)`. -/
def split_text_chunks (text : List Char) (chunk_size overlap : Nat) :
    List Chunk :=
  if text.length = 0 then []
  else
    let overlap' := clampOverlap chunk_size overlap
    let stride := chunk_size - overlap'
    chunkLoop text chunk_size stride 0 0

/-- Effective stride of the loop, after clamping. -/
def chunkStride (chunk_size overlap : Nat) : Nat :=
  chunk_size - clampOverlap chunk_size overlap

theorem chunkStride_pos (chunk_size overlap : Nat) (h : 0 < chunk_size) :
    0 < chunkStride chunk_size overlap := by
  unfold chunkStride clampOverlap
  split <;> omega

theorem chunkStride_le (chunk_size overlap : Nat) :
    chunkStride chunk_size overlap ≤ chunk_size := by
  unfold chunkStride; omega

/-- Closed form of the chunking loop: starting at `pos`, the produced
chunks are the slices at positions `pos, pos + s, pos + 2*s, ...` with
consecutive indices. -/
theorem chunkLoop_closed (text : List Char) (cs s : Nat) (hs : 0 < s) :
    ∀ fuel pos index, text.length - pos ≤ fuel →
      chunkLoop text cs s pos index =
        (List.range ((text.length - pos + s - 1) / s)).map
          (fun k =>
            { text := (text.drop (pos + k * s)).take cs
              index := index + k }) := by
  intro fuel
  induction fuel with
  | zero =>
      intro pos index hle
      rw [chunkLoop]
      have hpos : ¬ pos < text.length := by omega
      have hz : (text.length - pos + s - 1) / s = 0 := by
        have : text.length - pos = 0 := by omega
        rw [this]
        exact Nat.div_eq_of_lt (by omega)
      simp [hpos, hz]
  | succ n ih =>
      intro pos index hle
      rw [chunkLoop]
      by_cases hpos : pos < text.length
      · have hrec := ih (pos + s) (index + 1) (by omega)
        have hnum : (text.length - pos + s - 1) / s =
            (text.length - (pos + s) + s - 1) / s + 1 := by
          have ha : 1 ≤ text.length - pos := by omega
          rcases le_or_lt s (text.length - pos) with hc | hc
          · have h1 : text.length - pos + s - 1 =
                (text.length - (pos + s) + s - 1) + s := by omega
            rw [h1, Nat.add_div_right _ hs]
          · have h1 : text.length - (pos + s) = 0 := by omega
            rw [h1]
            have h2 : (text.length - pos + s - 1) / s = 1 := by
              have e1 : text.length - pos + s - 1 = (text.length - pos - 1) + s := by
                omega
              have e2 : (text.length - pos - 1) / s = 0 :=
                Nat.div_eq_of_lt (by omega)
              rw [e1, Nat.add_div_right _ hs, e2]
            have h3 : (0 + s - 1) / s = 0 := Nat.div_eq_of_lt (by omega)
            omega
        rw [hnum, List.range_succ_eq_map]
        simp only [hs, hpos, and_self, dite_true, List.map_cons, List.map_map]
        congr 1
        · simp
        · rw [hrec]
          refine List.map_congr_left ?_
          intro k _
          simp only [Function.comp_apply, Nat.succ_eq_add_one]
          have h1 : pos + s + k * s = pos + (k + 1) * s := by ring
          have h2 : index + 1 + k = index + (k + 1) := by omega
          rw [h1, h2]
      · have hz : (text.length - pos + s - 1) / s = 0 := by
          have : text.length - pos = 0 := by omega
          rw [this]
          exact Nat.div_eq_of_lt (by omega)
        simp [hpos, hz]

/-- Closed form of `split_text_chunks` for positive chunk sizes. -/
theorem split_text_chunks_closed (text : List Char) (cs ov : Nat)
    (h : 0 < cs) :
    split_text_chunks text cs ov =
      (List.range ((text.length + chunkStride cs ov - 1) / chunkStride cs ov)).map
        (fun k =>
          { text := (text.drop (k * chunkStride cs ov)).take cs
            index := k }) := by
  unfold split_text_chunks
  by_cases hlen : text.length = 0
  · have hs := chunkStride_pos cs ov h
    have hz : (chunkStride cs ov - 1) / chunkStride cs ov = 0 :=
      Nat.div_eq_of_lt (by omega)
    simp [hlen, hz]
  · have hs := chunkStride_pos cs ov h
    have hcl := chunkLoop_closed text cs (chunkStride cs ov) hs
      text.length 0 0 (by omega)
    simp only [hlen, if_false]
    rw [show cs - clampOverlap cs ov = chunkStride cs ov from rfl, hcl]
    simp

/-! ## JSON-like runtime values

Python runtime values flowing through a pipeline are modelled by `Value`.
-/

inductive Value where
  | null
  | boolVal (b : Bool)
  | intVal (n : Int)
  | strVal (s : String)
  | arr (items : List Value)
  | obj (fields : List (String × Value))

/-! ## Error taxonomy (src/ai_pipelines/errors.py)

`otherError` models a Python exception that is not a `PipelineError`
subclass; all other constructors are the `PipelineError` hierarchy.
`stepExecutionError` carries the failing step's name and the chained
cause, as in `StepExecutionError.__init__`. -/

inductive PyErr where
  | pipelineLoadError (msg : String)
  | expressionError (msg : String)
  | validationError (msg : String)
  | llmError (msg : String)
  | stepExecutionError (step_name : String) (msg : String)
      (cause : Option PyErr)
  | otherError (msg : String)

/-- `isinstance(e, PipelineError)`. -/
def PyErr.isPipelineError : PyErr → Bool
  | .otherError _ => false
  | _ => true

/-- `str(e)`: the message a Python exception renders to.  For
`StepExecutionError` this is the string built in its `__init__`. -/
def PyErr.msgText : PyErr → String
  | .pipelineLoadError m => m
  | .expressionError m => m
  | .validationError m => m
  | .llmError m => m
  | .stepExecutionError n m _ => "Step '" ++ n ++ "' failed: " ++ m
  | .otherError m => m

/-! ## Execution context (src/ai_pipelines/context.py)

A Python `dict` is modelled as an association list in which lookup takes
the first matching binding and every operation that adds or overrides
bindings conses at the front, so the head-most binding is the most recent
write.  Because `PipelineContext` objects are mutable and `child` takes a
value-copy of the parent's dict, object identity matters: a `Store` holds
the dict of every live context, and a context is an index into it
(`PipelineContext.__init__` creates the root at index 0; `child` appends a
fresh copy). -/

abbrev Dict := List (String × Value)

def dictLookup : Dict → String → Option Value
  | [], _ => none
  | (k', v) :: rest, k => if k' = k then some v else dictLookup rest k

structure Store where
  ctxs : List Dict

/-- `PipelineContext(pipeline_input)`: the root context, mapping
`{"input": pipeline_input}`, at index 0. -/
def newStore (pipeline_input : Value) : Store :=
  ⟨[[("input", pipeline_input)]]⟩

/-- `self._data` of the context `cid`, as read by `get_data()`. -/
def getData (s : Store) (cid : Nat) : Dict :=
  (s.ctxs.getD cid [])

/-- `PipelineContext.set_result`: raises `ExpressionError` on a duplicate
name, otherwise stores the binding (mutating only this context's dict). -/
def setResult (s : Store) (cid : Nat) (step_name : String) (v : Value) :
    Except PyErr Store :=
  let d := getData s cid
  if (dictLookup d step_name).isSome then
    .error (.expressionError ("Duplicate step name: '" ++ step_name ++ "'"))
  else
    .ok ⟨s.ctxs.set cid ((step_name, v) :: d)⟩

/-- `PipelineContext.child(extra)`: a fresh context whose dict is a
value-copy of the parent's current dict updated with `extra` (`extra`
shadows same-named parent entries). -/
def childCtx (s : Store) (cid : Nat) (extra : Dict) : Store × Nat :=
  (⟨s.ctxs ++ [extra ++ getData s cid]⟩, s.ctxs.length)

/-! ## JSONata AST and root-reference extraction
(src/ai_pipelines/validator.py, `_extract_root_references`)

The JSONata grammar itself is an external collaborator; following the
design note in the specification, its AST is embedded as an abstract
node-kind vocabulary covering exactly the attributes the validator reads:
`type`, `value`, `steps`, `stages` (filter predicates attached to a name
step of a path), `lhs`, `rhs`, `lhs_object`, `expressions`, `arguments`,
`condition`, `then`, `_else`.  The `procedure` head of a function node is
carried (so that ignoring it is a provable fact) even though the extractor
never reads it. -/

inductive JNode where
  /-- A bare name path segment; `stages` holds any attached filter
  predicates (`items[verified != false]`). -/
  | name (value : String) (stages : List JNode)
  /-- A `$`-variable (builtin reference such as `$count`). -/
  | variableNode (value : String)
  | strLit (value : String)
  | numLit (value : Int)
  /-- Literal `true` / `false` / `null`. -/
  | valueLit (value : String)
  | regexLit
  | wildcard
  | descendant
  | path (steps : List JNode)
  | binary (value : String) (lhs rhs : JNode)
  /-- Object construction (`value = "{"`, pairs in `lhs_object`), array
  construction (`value = "["`, members in `expressions`). -/
  | unaryNode (value : String) (lhs_object : List (JNode × JNode))
      (expressions : List JNode)
  | function (procedure : JNode) (arguments : List JNode)
  | condition (cond thenBranch : JNode) (elseBranch : Option JNode)
  | block (expressions : List JNode)
  | bind (rhs : JNode)
  | applyNode (lhs rhs : JNode)
deriving Repr

/-- `_extract_root_references` (validator.py lines 157-224), on a non-None
node.  Mirrors the Python dispatch on `node.type`; the `stages` of a path
step and the later steps of a path are never visited, and the `procedure`
head of a function node is never visited. -/
def extractRootReferences : JNode → Finset String
  | .path steps =>
      match steps with
      | [] => ∅
      | first :: _ =>
          match first with
          | .name v _ => {v}
          | other => extractRootReferences other
  | .binary _ lhs rhs =>
      extractRootReferences lhs ∪ extractRootReferences rhs
  | .unaryNode _ lhs_object expressions =>
      (lhs_object.attach.map
          (fun p =>
            extractRootReferences p.1.1 ∪ extractRootReferences p.1.2)).foldr
        (· ∪ ·) ∅ ∪
      (expressions.attach.map
          (fun e => extractRootReferences e.1)).foldr (· ∪ ·) ∅
  | .function _ arguments =>
      (arguments.attach.map
          (fun a => extractRootReferences a.1)).foldr (· ∪ ·) ∅
  | .condition cond thenBranch elseBranch =>
      extractRootReferences cond ∪ extractRootReferences thenBranch ∪
        (match elseBranch with
         | none => ∅
         | some e => extractRootReferences e)
  | .block expressions =>
      (expressions.attach.map
          (fun e => extractRootReferences e.1)).foldr (· ∪ ·) ∅
  | .bind rhs => extractRootReferences rhs
  | .applyNode lhs rhs =>
      extractRootReferences lhs ∪ extractRootReferences rhs
  | _ => ∅
decreasing_by
  all_goals simp_wf
  all_goals
    first
    | (rcases p with ⟨⟨x, y⟩, hp⟩
       have hm := List.sizeOf_lt_of_mem hp
       simp only [Prod.mk.sizeOf_spec] at hm
       simp only [Subtype.mk.sizeOf_spec]
       omega)
    | (rcases e with ⟨x, hx⟩
       have hm := List.sizeOf_lt_of_mem hx
       simp only []
       omega)
    | (rcases a with ⟨x, hx⟩
       have hm := List.sizeOf_lt_of_mem hx
       simp only []
       omega)
    | simp_arith

/-- The `node is None` guard at the top of `_extract_root_references`. -/
def extractRootReferencesOpt : Option JNode → Finset String
  | none => ∅
  | some node => extractRootReferences node

/-! ## Pipeline step model (src/ai_pipelines/models.py)

Each `arguments` field in the source is a JSONata source string; the
parser is external, so a step carries the parse outcome of that string:
`none` models a string on which `Jsonata(...)` raises, `some ast` a
successful parse (`ParsedExpr`).  A prompt's Jinja2 template is likewise
external: `TemplateInfo` records whether `_JINJA_ENV.parse` succeeds and,
when it does, the set of `args.KEY` attribute references the Jinja2 AST
walk of `_extract_template_arg_keys` would produce. -/

/-- Parse outcome of a JSONata `arguments` string. -/
def ParsedExpr := Option JNode

/-- Parse outcome of a Jinja2 template string. -/
structure TemplateInfo where
  parseOk : Bool
  argKeys : Finset String

inductive VStep where
  | findFiles (name : String) (arguments : ParsedExpr) (pattern : String)
  | readFile (name : String) (arguments : ParsedExpr)
  | transform (name : String) (arguments : ParsedExpr)
  | chunk (name : String) (arguments : ParsedExpr) (chunk_size overlap : Nat)
  | prompt (name : String) (arguments : Option ParsedExpr)
      (template : TemplateInfo)
  | evaluateStep (name : String) (arguments : ParsedExpr) (strategy : String)
  | forEach (name : String) (arguments : ParsedExpr) (steps : List VStep)

def VStep.name : VStep → String
  | .findFiles n _ _ => n
  | .readFile n _ => n
  | .transform n _ => n
  | .chunk n _ _ _ => n
  | .prompt n _ _ => n
  | .evaluateStep n _ _ => n
  | .forEach n _ _ => n

/-- The `kind` discriminator.  `for_each` and `pipeline` are aliases in
the surface syntax; the model uses the canonical `for_each`. -/
def VStep.kind : VStep → String
  | .findFiles _ _ _ => "find_files"
  | .readFile _ _ => "read_file"
  | .transform _ _ => "transform"
  | .chunk _ _ _ _ => "chunk"
  | .prompt _ _ _ => "prompt"
  | .evaluateStep _ _ _ => "evaluate"
  | .forEach _ _ _ => "for_each"

/-- `getattr(step, "arguments", None)`: every step model has the
attribute; only a prompt's may be `None`. -/
def VStep.argumentsAttr : VStep → Option ParsedExpr
  | .findFiles _ a _ => some a
  | .readFile _ a => some a
  | .transform _ a => some a
  | .chunk _ a _ _ => some a
  | .prompt _ a _ => a
  | .evaluateStep _ a _ => some a
  | .forEach _ a _ => some a

/-! ## Diagnostics and the static validator (src/ai_pipelines/validator.py)

The Python diagnostics carry formatted message strings; each message shape
is modelled as a `DiagMsg` constructor carrying the data interpolated into
the corresponding f-string (the renderings are injective, so nothing is
lost). -/

inductive Severity where
  | error
  | warning
deriving DecidableEq, Repr

inductive DiagMsg where
  /-- `Step name '{name}' is reserved` -/
  | reservedName (name : String)
  /-- `Duplicate step name '{name}' at {scope} (first at index {i})` -/
  | duplicateName (name : String) (scope : String) (firstIndex : Nat)
  /-- `Invalid JSONata expression: {e}` -/
  | invalidExpression
  /-- `Reference '{ref}' is not available. Available names: {sorted}` -/
  | refNotAvailable (ref : String) (availableNames : List String)
  /-- `Invalid Jinja2 template: {e}` -/
  | invalidTemplate
  /-- `Template references 'args.{key}' but arguments does not produce
  key '{key}'. Arguments keys: {sorted}` -/
  | templateMissingKey (key : String) (argumentKeys : List String)
  /-- `Arguments produces key '{key}' but template never references
  'args.{key}'` -/
  | unusedKey (key : String)
  /-- `for_each iterates over '{ref}' which is a read_file step ...` -/
  | forEachOverString (ref : String)
  /-- `Strategy '{strategy}' requires key '{key}' in arguments. Got keys:
  {sorted}` -/
  | missingRequiredKey (strategy : String) (key : String)
      (gotKeys : List String)
  /-- `Strategy '{strategy}' does not use key '{key}'` -/
  | strategyUnusedKey (strategy : String) (key : String)
deriving DecidableEq, Repr

structure Diagnostic where
  severity : Severity
  step_name : String
  message : DiagMsg
  field : String
deriving DecidableEq, Repr

structure ValidationResult where
  diagnostics : List Diagnostic

/-- `ValidationResult.ok`: no error-severity diagnostics. -/
def ValidationResult.ok (r : ValidationResult) : Bool :=
  !(r.diagnostics.any (fun d => d.severity = Severity.error))

def RESERVED_NAMES : Finset String := {"input", "item", "item_index"}

def nestedScopePath (scopePath name : String) : String :=
  if scopePath = "" then name else scopePath ++ "/" ++ name

/-- `_check_name_uniqueness`: the loop state is the running index `i` and
the `seen` first-index map (an assoc list keyed by name; entries are only
added when absent, as in the Python dict). -/
def checkNameUniquenessAux :
    List VStep → String → Nat → List (String × Nat) → List Diagnostic
  | [], _, _, _ => []
  | s :: rest, scopePath, i, seen =>
      let reservedDiags : List Diagnostic :=
        if s.name ∈ RESERVED_NAMES then
          [⟨.error, s.name, .reservedName s.name, "name"⟩]
        else []
      let dupDiags : List Diagnostic :=
        match seen.lookup s.name with
        | some firstIdx =>
            let scopeLabel := if scopePath = "" then "top level" else scopePath
            [⟨.error, s.name, .duplicateName s.name scopeLabel firstIdx,
              "name"⟩]
        | none => []
      let seen' : List (String × Nat) :=
        match seen.lookup s.name with
        | some _ => seen
        | none => (s.name, i) :: seen
      let nestedDiags : List Diagnostic :=
        match s with
        | .forEach n _ nested =>
            checkNameUniquenessAux nested (nestedScopePath scopePath n) 0 []
        | _ => []
      reservedDiags ++ dupDiags ++ nestedDiags ++
        checkNameUniquenessAux rest scopePath (i + 1) seen'

def checkNameUniqueness (steps : List VStep) : List Diagnostic :=
  checkNameUniquenessAux steps "" 0 []

/-- `_parse_jsonata`: a parse failure yields the one error diagnostic. -/
def parseDiags (expr : ParsedExpr) (stepName fieldName : String) :
    List Diagnostic :=
  match expr with
  | none => [⟨.error, stepName, .invalidExpression, fieldName⟩]
  | some _ => []

/-- The per-reference availability loop of `_check_references`: one error
diagnostic for each extracted root reference (in sorted order) that is not
in the available set. -/
def argRefDiags (stepName : String) (ast : JNode)
    (available : Finset String) : List Diagnostic :=
  ((extractRootReferences ast).sort (· ≤ ·)).filterMap
    (fun ref =>
      if ref ∈ available then none
      else
        some ⟨.error, stepName,
          .refNotAvailable ref (available.sort (· ≤ ·)), "arguments"⟩)

/-- The `arguments` handling of one loop iteration of
`_check_references`: parse diagnostics, then reference diagnostics when
the parse succeeded; nothing when the step has no `arguments`. -/
def stepArgDiags (s : VStep) (available : Finset String) :
    List Diagnostic :=
  match s.argumentsAttr with
  | none => []
  | some expr =>
      parseDiags expr s.name "arguments" ++
        (match expr with
         | none => []
         | some ast => argRefDiags s.name ast available)

/-- `_check_template` (Jinja2 parse, external): error diagnostic when the
template does not parse. -/
def checkTemplate (stepName : String) (t : TemplateInfo) :
    List Diagnostic :=
  if t.parseOk then []
  else [⟨.error, stepName, .invalidTemplate, "template"⟩]

/-- `str(node.value)` on an object-literal key node.  In the jsonata
grammar object keys always carry a value; the validator only ever applies
this to such nodes. -/
def nodeValueStr : JNode → String
  | .name v _ => v
  | .variableNode v => v
  | .strLit v => v
  | .numLit n => toString n
  | .valueLit v => v
  | .binary v _ _ => v
  | .unaryNode v _ _ => v
  | _ => ""

/-- `_extract_jsonata_object_keys`: the key set when the parsed expression
is a JSONata object literal (`unary` node with value `{` and a non-empty
`lhs_object`), else `None`. -/
def extractJsonataObjectKeys (expr : ParsedExpr) : Option (Finset String) :=
  match expr with
  | none => none
  | some (.unaryNode v lhs_object _) =>
      if v = "\x7b" then
        match lhs_object with
        | [] => none
        | _ => some (lhs_object.map (fun p => nodeValueStr p.1)).toFinset
      else none
  | some _ => none

/-- `_extract_template_arg_keys`: the `args.KEY` references of the parsed
template, the empty set when the template does not parse. -/
def extractTemplateArgKeys (t : TemplateInfo) : Finset String :=
  if t.parseOk then t.argKeys else ∅

/-- `_cross_check_template_args`. -/
def crossCheckTemplateArgs (stepName : String) (args : Option ParsedExpr)
    (t : TemplateInfo) : List Diagnostic :=
  match args with
  | none => []
  | some expr =>
      match extractJsonataObjectKeys expr with
      | none => []
      | some objKeys =>
          let templateKeys := extractTemplateArgKeys t
          let missing :=
            ((templateKeys \ objKeys).sort (· ≤ ·)).map
              (fun k =>
                (⟨.error, stepName,
                  .templateMissingKey k (objKeys.sort (· ≤ ·)),
                  "template"⟩ : Diagnostic))
          let unused :=
            ((objKeys \ templateKeys).sort (· ≤ ·)).map
              (fun k => (⟨.warning, stepName, .unusedKey k,
                "arguments"⟩ : Diagnostic))
          missing ++ unused

/-- `_EVALUATE_REQUIRED_KEYS` with the `.get(strategy, set())` default. -/
def evaluateRequiredKeys (strategy : String) : Finset String :=
  if strategy = "summarization" then {"source", "summary"}
  else if strategy = "faithfulness" then {"source", "response"}
  else if strategy = "hallucination" then {"context", "response"}
  else if strategy = "context_relevance" then {"question", "context"}
  else if strategy = "context_utilization" then
    {"question", "context", "response"}
  else if strategy = "factual_accuracy" then
    {"question", "context", "response"}
  else if strategy = "context_conciseness" then
    {"question", "context", "concise_context"}
  else ∅

def expectedAllKeys : Finset String :=
  {"source", "summary", "response", "context", "question",
   "concise_context"}

/-- `_check_evaluate_arguments`. -/
def checkEvaluateArguments (stepName : String) (args : ParsedExpr)
    (strategy : String) : List Diagnostic :=
  match extractJsonataObjectKeys args with
  | none => []
  | some objKeys =>
      let required := evaluateRequiredKeys strategy
      let missing :=
        ((required \ objKeys).sort (· ≤ ·)).map
          (fun k =>
            (⟨.error, stepName,
              .missingRequiredKey strategy k (objKeys.sort (· ≤ ·)),
              "arguments"⟩ : Diagnostic))
      let extra := objKeys \ required
      let unexpected := extra ∩ expectedAllKeys
      let warnings :=
        (unexpected.sort (· ≤ ·)).map
          (fun k => (⟨.warning, stepName, .strategyUnusedKey strategy k,
            "arguments"⟩ : Diagnostic))
      missing ++ warnings

/-- The `step_kinds` loop of `_check_for_each_target_type`: record
`(name, kind)` of each sibling in order, stopping right after the
`for_each` step itself. -/
def stepKindsUpTo : List VStep → String → List (String × String)
  | [], _ => []
  | s :: rest, target =>
      (s.name, s.kind) ::
        (if s.name = target then [] else stepKindsUpTo rest target)

/-- Python-dict lookup over the recorded `(name, kind)` pairs: the last
assignment for a key wins. -/
def kindsLookup (l : List (String × String)) (k : String) : Option String :=
  l.reverse.lookup k

/-- `_check_for_each_target_type`. -/
def checkForEachTargetType (feName : String) (args : ParsedExpr)
    (siblings : List VStep) : List Diagnostic :=
  match args with
  | none => []
  | some ast =>
      match ast with
      | .path steps =>
          match steps with
          | [] => []
          | first :: restSteps =>
              match first with
              | .name refName _ =>
                  match restSteps with
                  | _ :: _ => []
                  | [] =>
                    match kindsLookup (stepKindsUpTo siblings feName)
                        refName with
                    | some k =>
                        if k = "read_file" then
                          [⟨.warning, feName, .forEachOverString refName,
                            "arguments"⟩]
                        else []
                    | none => []
              | _ => []
      | _ => []

/-- `_check_references`: the walk over one scope's step list, threading
the running available-name set.  `full` is the scope's complete step list
(the Python code hands the whole list to `_check_for_each_target_type`);
the walk starts with `full = steps`. -/
def checkReferencesAux :
    (full steps : List VStep) → Finset String → String → List Diagnostic
  | _, [], _, _ => []
  | full, s :: rest, available, scopePath =>
      stepArgDiags s available ++
        (match s with
         | .prompt n args t =>
             checkTemplate n t ++ crossCheckTemplateArgs n args t
         | _ => []) ++
        (match s with
         | .evaluateStep n args strat =>
             checkEvaluateArguments n args strat
         | _ => []) ++
        (match s with
         | .forEach n args nested =>
             checkForEachTargetType n args full ++
               checkReferencesAux nested nested
                 (available ∪ {"item", "item_index"})
                 (nestedScopePath scopePath n)
         | _ => []) ++
        checkReferencesAux full rest (insert s.name available) scopePath

def checkReferences (steps : List VStep) (parent_available : Finset String)
    (scopePath : String) : List Diagnostic :=
  checkReferencesAux steps steps parent_available scopePath

/-- The pipeline definition: an input JSON-Schema (opaque to the
validator, itself a JSON value) and the step list. -/
structure PipelineDefinition where
  input : Value
  steps : List VStep

/-- `validate_pipeline`. -/
def validate_pipeline (definition : PipelineDefinition) :
    ValidationResult :=
  ⟨checkNameUniqueness definition.steps ++
    checkReferences definition.steps {"input"} ""⟩

/-! ## Root references of a step's arguments -/

/-- The root references of a step's `arguments` expression (empty when the
step has no arguments or when the expression does not parse — an
unparseable expression raises an `ExpressionError` at evaluation time,
which is not a reference-availability failure). -/
def VStep.argRefs (s : VStep) : Finset String :=
  match s.argumentsAttr with
  | none => ∅
  | some none => ∅
  | some (some ast) => extractRootReferences ast

/-! ## Executor name-scoping trace
(src/ai_pipelines/executor.py `run_pipeline`,
src/ai_pipelines/steps/for_each.py `execute_for_each`)

`execTraceAux steps dom` is the name-level projection of the executor: it
pairs every step that can execute with the key set of the context dict
against which its `arguments` expression is evaluated.

  * `run_pipeline` evaluates step `i`'s expression against the top-level
    context, whose keys are `{"input"}` plus the names of steps
    `0..i-1` (`set_result` runs after each step completes);
  * `execute_for_each` evaluates every nested step against a child
    context created per iteration from the parent's current dict plus
    `{"item", "item_index"}`, and writes nested results only into that
    child, so within every iteration the child's key set evolves the same
    way; the iteration count (a runtime value) does not affect the key
    sets, so one symbolic iteration covers them all, and an empty input
    sequence merely makes the nested pairs unreachable (the containment
    property is then vacuous at runtime).
-/

def execTraceAux : List VStep → Finset String → List (VStep × Finset String)
  | [], _ => []
  | s :: rest, dom =>
      ((s, dom) ::
        (match s with
         | .forEach _ _ nested =>
             execTraceAux nested (dom ∪ {"item", "item_index"})
         | _ => [])) ++
        execTraceAux rest (insert s.name dom)

/-- The executor trace of a whole pipeline: the root context starts with
key set `{"input"}`. -/
def execTrace (definition : PipelineDefinition) :
    List (VStep × Finset String) :=
  execTraceAux definition.steps {"input"}

/-! ## Executor loop (src/ai_pipelines/executor.py `run_pipeline`)

Step execution itself (`execute_step`) dispatches to per-kind executors
that call external capabilities (LLM, filesystem, expression evaluator),
so it is a parameter `exec` of the loop.  The loop's own behaviour —
sequential execution, the `except PipelineError: raise` /
`except Exception: raise StepExecutionError(...)` cascade, `set_result`
after each step, the result accumulation and the cost accumulator that is
initialised to `0.0` and never incremented — is embedded directly.
Wall-clock durations come from the external clock and are omitted.
`execute_for_each` writes nested results only into per-iteration child
dicts (value copies), so the top-level loop's dict is modified only by
its own `set_result` calls, as modelled.  The outcome exposes the
context dict and accumulated step results at the moment the loop stops,
mirroring the mutable state the Python code holds when an exception
propagates. -/

structure StepResultM where
  step_name : String
  value : Value
  cost_usd : Option ℚ

structure PipelineResultM where
  output : Value
  step_results : List StepResultM
  total_cost_usd : ℚ

/-- The `except PipelineError: raise` / `except Exception as e: raise
StepExecutionError(step.name, str(e), cause=e)` cascade around
`execute_step`. -/
def wrapStepError (stepName : String) (e : PyErr) : PyErr :=
  if e.isPipelineError then e
  else .stepExecutionError stepName e.msgText (some e)

/-- `context.set_result` as seen by the top-level loop (the root context's
dict). -/
def ctxSetResult (d : Dict) (step_name : String) (v : Value) :
    Except PyErr Dict :=
  if (dictLookup d step_name).isSome then
    .error (.expressionError ("Duplicate step name: '" ++ step_name ++ "'"))
  else .ok ((step_name, v) :: d)

/-- The `for step in definition.steps` loop of `run_pipeline`.  Returns
the context dict and step-result list at the moment the loop stops,
together with either the last step's value or the propagating error. -/
def runStepsAux (exec : VStep → Dict → Except PyErr Value) :
    List VStep → Dict → List StepResultM → Value →
      Dict × List StepResultM × Except PyErr Value
  | [], ctx, acc, last => (ctx, acc, .ok last)
  | s :: rest, ctx, acc, _ =>
      match exec s ctx with
      | .error e => (ctx, acc, .error (wrapStepError s.name e))
      | .ok v =>
          match ctxSetResult ctx s.name v with
          | .error e => (ctx, acc, .error e)
          | .ok ctx' =>
              runStepsAux exec rest ctx' (acc ++ [⟨s.name, v, none⟩]) v

/-- `run_pipeline`.  `inputConforms` is the verdict of the external
jsonschema validation of `input_data` against the pipeline's input
schema (`validate_input`); `exec` is `execute_step`. -/
def run_pipeline (exec : VStep → Dict → Except PyErr Value)
    (inputConforms : Bool) (definition : PipelineDefinition)
    (input_data : Value) : Except PyErr PipelineResultM :=
  if inputConforms then
    match runStepsAux exec definition.steps [("input", input_data)] []
        .null with
    | (_, _, .error e) => .error e
    | (_, results, .ok last) => .ok ⟨last, results, 0⟩
  else .error (.validationError "Input validation failed")

/-! ## Chunk step executor (src/ai_pipelines/steps/chunk.py
`execute_chunk`)

The expression evaluation of `step.arguments` is external; `resolvedText`
is `str(evaluate(step.arguments, context.get_data()))`. -/

/-- One `{"text": ..., "index": ...}` chunk record as a runtime value. -/
def chunkValue (c : Chunk) : Value :=
  .obj [("text", .strVal ⟨c.text⟩), ("index", .intVal c.index)]

/-- `execute_chunk`: returns `{"chunks": [...]}`. -/
def execute_chunk (resolvedText : String) (chunk_size overlap : Nat) :
    Value :=
  .obj [("chunks",
    .arr ((split_text_chunks resolvedText.data chunk_size overlap).map
      chunkValue))]

/-! ## Summarization evaluation strategy
(src/ai_pipelines/steps/evaluate.py `_evaluate_summarization`,
`_compute_conciseness`)

The three structured LLM calls are external; their parsed payloads enter
as parameters: `keyphrases` is `result.get("keyphrases", [])` of the
first call, `questions` the question texts of the second, and `answers`
the `a.get("answer")` fields of the third.  Python float arithmetic is
modelled over ℚ: the literal `1e-10` as `1 / 10^10` and `round(x, 4)` as
`pyRound4` (nearest integer at 4 decimal digits; no value below is at an
exact tie, where Python's round-half-even could differ). -/

def pyRound4 (x : ℚ) : ℚ := ((round (x * 10000) : ℤ) : ℚ) / 10000

def epsTiny : ℚ := 1 / 10 ^ 10

/-- `_compute_conciseness`. -/
def compute_conciseness (source summary : String) : ℚ :=
  if source.length = 0 then 1
  else
    1 - (min summary.length source.length : ℚ) /
      ((source.length : ℚ) + epsTiny)

structure SummarizationResult where
  score : ℚ
  qa_score : ℚ
  conciseness : ℚ
  total_questions : Nat
  correct_answers : Nat
  keyphrases : List String
  questions : List String
  answers : List (Option String)

/-- `_evaluate_summarization`. -/
def evaluate_summarization (source summary : String)
    (keyphrases : List String) (questions : List String)
    (answers : List (Option String)) : SummarizationResult :=
  if keyphrases = [] then
    ⟨0, 0, compute_conciseness source summary, 0, 0, [], [], []⟩
  else if questions = [] then
    ⟨0, 0, compute_conciseness source summary, 0, 0, keyphrases, [], []⟩
  else
    let correct := (answers.filter (fun a => a = some "YES")).length
    let total := questions.length
    let qa_score : ℚ := if 0 < total then (correct : ℚ) / total else 0
    let conciseness := compute_conciseness source summary
    let score := qa_score * (1 / 2) + conciseness * (1 / 2)
    ⟨pyRound4 score, pyRound4 qa_score, pyRound4 conciseness, total,
      correct, keyphrases, questions, answers⟩

/-! # Theorems -/

/-- The JSONata AST of `items[verified != false]`: a path whose single
step is the bare name `items` carrying the filter predicate
`verified != false` as a stage. -/
def itemsFilterAst : JNode :=
  .path [.name "items"
    [.binary "!=" (.path [.name "verified" []]) (.valueLit "false")]]

/-- Fold unions over `attach`-mapped lists reduce to plain folds. -/
theorem extract_unary_eq (v : String) (pairs : List (JNode × JNode))
    (exprs : List JNode) :
    extractRootReferences (.unaryNode v pairs exprs) =
      (pairs.map (fun p =>
        extractRootReferences p.1 ∪ extractRootReferences p.2)).foldr
        (· ∪ ·) ∅ ∪
      (exprs.map extractRootReferences).foldr (· ∪ ·) ∅ := by
  rw [extractRootReferences]
  rw [List.attach_map_val pairs
    (fun p => extractRootReferences p.1 ∪ extractRootReferences p.2)]
  rw [List.attach_map_val exprs extractRootReferences]

theorem extract_function_eq (p : JNode) (args : List JNode) :
    extractRootReferences (.function p args) =
      (args.map extractRootReferences).foldr (· ∪ ·) ∅ := by
  rw [extractRootReferences]
  rw [List.attach_map_val args extractRootReferences]

theorem extract_block_eq (exprs : List JNode) :
    extractRootReferences (.block exprs) =
      (exprs.map extractRootReferences).foldr (· ∪ ·) ∅ := by
  rw [extractRootReferences]
  rw [List.attach_map_val exprs extractRootReferences]

/-- C3: root-reference extraction returns the first path segment when it
is a bare name and ignores both the trailing path steps and any filter
predicates attached as stages (so `items[verified != false]` extracts
exactly `{items}` and never `verified`); it recurses into binary
operators, object/array constructors, function-call arguments,
conditional branches and blocks, unioning the results; literals
contribute nothing and a function's builtin head contributes nothing
(only the arguments do). -/
theorem extract_root_references_correct :
    (∀ (v : String) (stages rest : List JNode),
        extractRootReferences (.path (.name v stages :: rest)) = {v}) ∧
    (extractRootReferences itemsFilterAst = {"items"} ∧
      "verified" ∉ extractRootReferences itemsFilterAst) ∧
    (∀ (op : String) (l r : JNode),
        extractRootReferences (.binary op l r) =
          extractRootReferences l ∪ extractRootReferences r) ∧
    (∀ (v : String) (pairs : List (JNode × JNode)) (exprs : List JNode),
        extractRootReferences (.unaryNode v pairs exprs) =
          (pairs.map (fun p =>
            extractRootReferences p.1 ∪ extractRootReferences p.2)).foldr
            (· ∪ ·) ∅ ∪
          (exprs.map extractRootReferences).foldr (· ∪ ·) ∅) ∧
    (∀ (p q : JNode) (args : List JNode),
        extractRootReferences (.function p args) =
          extractRootReferences (.function q args) ∧
        extractRootReferences (.function p args) =
          (args.map extractRootReferences).foldr (· ∪ ·) ∅) ∧
    (∀ (c t e : JNode),
        extractRootReferences (.condition c t (some e)) =
          extractRootReferences c ∪ extractRootReferences t ∪
            extractRootReferences e) ∧
    (∀ (c t : JNode),
        extractRootReferences (.condition c t none) =
          extractRootReferences c ∪ extractRootReferences t ∪ ∅) ∧
    (∀ (exprs : List JNode),
        extractRootReferences (.block exprs) =
          (exprs.map extractRootReferences).foldr (· ∪ ·) ∅) ∧
    (∀ s, extractRootReferences (.strLit s) = ∅) ∧
    (∀ n, extractRootReferences (.numLit n) = ∅) ∧
    (∀ v, extractRootReferences (.variableNode v) = ∅) := by
  refine ⟨?_, ⟨?_, ?_⟩, ?_, ?_, ?_, ?_, ?_, ?_, ?_, ?_, ?_⟩
  · intro v stages rest
    rw [extractRootReferences]
  · rw [itemsFilterAst, extractRootReferences]
  · rw [itemsFilterAst, extractRootReferences]
    decide
  · intro op l r
    rw [extractRootReferences]
  · intro v pairs exprs
    exact extract_unary_eq v pairs exprs
  · intro p q args
    exact ⟨(extract_function_eq p args).trans
        (extract_function_eq q args).symm,
      extract_function_eq p args⟩
  · intro c t e
    rw [extractRootReferences]
  · intro c t
    rw [extractRootReferences]
  · intro exprs
    exact extract_block_eq exprs
  · intro s
    rw [extractRootReferences]
    all_goals intros
    all_goals simp_all
  · intro n
    rw [extractRootReferences]
    all_goals intros
    all_goals simp_all
  · intro v
    rw [extractRootReferences]
    all_goals intros
    all_goals simp_all

/-- Membership in the ceiling-division range used by the chunk closed
form. -/
theorem lt_ceilDiv_iff (L s k : Nat) (hs : 0 < s) :
    k < (L + s - 1) / s ↔ k * s < L := by
  rcases Nat.eq_zero_or_pos L with hL | hL
  · subst hL
    have : (0 + s - 1) / s = 0 := Nat.div_eq_of_lt (by omega)
    rw [this]
    omega
  · have h1 : L + s - 1 = (L - 1) + s := by omega
    rw [h1, Nat.add_div_right _ hs, Nat.lt_succ_iff,
      Nat.le_div_iff_mul_le hs]
    omega

/-- C4 (amended): for positive `chunk_size`, `split_text_chunks` returns
the empty sequence on empty text and otherwise exactly the slices
`[k * stride, k * stride + chunk_size)` for `k = 0, 1, 2, ...` while
`k * stride < len(text)`, with indices `0, 1, 2, ...` in order, where
`stride = chunk_size - overlap` after clamping `overlap` to
`chunk_size - 1` whenever `overlap ≥ chunk_size`; every chunk has
`min chunk_size (len - k * stride)` characters (so chunks are shorter
than `chunk_size` exactly when `k * stride + chunk_size` overshoots the
text — with positive overlap several trailing chunks can be short, not
just the final one) and no chunk is empty; 25 characters with
`chunk_size = 10`, `overlap = 0` yield 3 chunks of lengths
`[10, 10, 5]` with indices `[0, 1, 2]`. -/
theorem split_text_chunks_spec :
    (∀ chunk_size overlap, split_text_chunks [] chunk_size overlap = []) ∧
    (∀ (text : List Char) (chunk_size overlap : Nat), 0 < chunk_size →
      split_text_chunks text chunk_size overlap =
        (List.range
            ((text.length + chunkStride chunk_size overlap - 1) /
              chunkStride chunk_size overlap)).map
          (fun k =>
            { text := (text.drop
                (k * chunkStride chunk_size overlap)).take chunk_size
              index := k }) ∧
      (∀ k, k < (text.length + chunkStride chunk_size overlap - 1) /
            chunkStride chunk_size overlap ↔
          k * chunkStride chunk_size overlap < text.length) ∧
      (∀ c ∈ split_text_chunks text chunk_size overlap,
        c.text.length =
          min chunk_size
            (text.length - c.index * chunkStride chunk_size overlap) ∧
        c.text ≠ [])) ∧
    (∀ chunk_size overlap, chunk_size ≤ overlap →
        clampOverlap chunk_size overlap = chunk_size - 1) ∧
    (∀ chunk_size overlap, overlap < chunk_size →
        clampOverlap chunk_size overlap = overlap) ∧
    ((split_text_chunks (List.replicate 25 'a') 10 0).map
        (fun c => (c.text.length, c.index)) = [(10, 0), (10, 1), (5, 2)]) := by
  refine ⟨?_, ?_, ?_, ?_, ?_⟩
  · intro chunk_size overlap
    simp [split_text_chunks]
  · intro text chunk_size overlap h
    have hs := chunkStride_pos chunk_size overlap h
    have hclosed := split_text_chunks_closed text chunk_size overlap h
    refine ⟨hclosed, fun k => lt_ceilDiv_iff _ _ _ hs, ?_⟩
    intro c hc
    rw [hclosed] at hc
    obtain ⟨k, hk, rfl⟩ := List.mem_map.mp hc
    rw [List.mem_range, lt_ceilDiv_iff _ _ _ hs] at hk
    constructor
    · simp [List.length_take, List.length_drop]
    · intro hnil
      have h2 := congrArg List.length hnil
      simp only [List.length_take, List.length_drop, List.length_nil] at h2
      rcases Nat.min_eq_zero_iff.mp h2 with h0 | h0 <;> omega
  · intro chunk_size overlap hle
    simp [clampOverlap, hle]
  · intro chunk_size overlap hlt
    simp [clampOverlap, Nat.not_le_of_lt hlt]
  · rw [split_text_chunks_closed _ _ _ (by norm_num)]
    decide

/-- Witness for the amended C4 statement at concrete inputs. -/
theorem split_text_chunks_spec_witness :
    split_text_chunks [] 10 3 = [] ∧
    clampOverlap 10 12 = 9 ∧
    clampOverlap 10 3 = 3 ∧
    (∀ c ∈ split_text_chunks (List.replicate 25 'a') 10 7,
      c.text.length = min 10 (25 - c.index * chunkStride 10 7) ∧
      c.text ≠ []) := by
  refine ⟨split_text_chunks_spec.1 10 3,
    split_text_chunks_spec.2.2.1 10 12 (by decide),
    split_text_chunks_spec.2.2.2.1 10 3 (by decide), ?_⟩
  have h := (split_text_chunks_spec.2.1 (List.replicate 25 'a') 10 7
    (by decide)).2.2
  simpa using h

/-- C4 counterexample: 25 characters with `chunk_size = 10` and
`overlap = 7` produce 9 chunks of lengths `[10,10,10,10,10,10,7,4,1]`:
the chunks at indices 6 and 7 are shorter than `chunk_size` yet are not
the final chunk, refuting "only the final chunk may be shorter than
chunk_size". -/
theorem split_text_chunks_nonfinal_short :
    (split_text_chunks (List.replicate 25 'a') 10 7).length = 9 ∧
    (split_text_chunks (List.replicate 25 'a') 10 7).map
        (fun c => c.text.length) = [10, 10, 10, 10, 10, 10, 7, 4, 1] ∧
    ¬ (∀ c ∈ (split_text_chunks (List.replicate 25 'a') 10 7).dropLast,
        c.text.length = 10) := by
  rw [split_text_chunks_closed _ _ _ (by norm_num)]
  decide

/-- C5: for every text, every `chunk_size > 0` and every `overlap`
(including `overlap ≥ chunk_size`), the clamped stride is at least 1 —
so the position strictly increases and the loop terminates (the model is
total by construction precisely because of this) — and the union of the
produced windows `[index * stride, index * stride + chunk_size)` covers
`[0, len(text))` with no gap; moreover the spec's `chunk_size = 100`,
`overlap = 100` example yields more than one chunk. -/
theorem split_text_chunks_covers (text : List Char)
    (chunk_size overlap : Nat) (h : 0 < chunk_size) :
    1 ≤ chunkStride chunk_size overlap ∧
    (∀ j < text.length, ∃ c ∈ split_text_chunks text chunk_size overlap,
      c.index * chunkStride chunk_size overlap ≤ j ∧
      j < c.index * chunkStride chunk_size overlap + chunk_size) ∧
    1 < (split_text_chunks (List.replicate 200 'a') 100 100).length := by
  have hs := chunkStride_pos chunk_size overlap h
  refine ⟨hs, ?_, ?_⟩
  · intro j hj
    set s := chunkStride chunk_size overlap with hsdef
    refine ⟨{ text := (text.drop ((j / s) * s)).take chunk_size
              index := j / s }, ?_, ?_, ?_⟩
    · rw [split_text_chunks_closed text chunk_size overlap h]
      refine List.mem_map.mpr ⟨j / s, ?_, rfl⟩
      rw [List.mem_range, lt_ceilDiv_iff _ _ _ hs]
      have := Nat.div_mul_le_self j s
      omega
    · exact Nat.div_mul_le_self j s
    · show j < j / s * s + chunk_size
      have hmod : j / s * s + j % s = j := Nat.div_add_mod' j s
      have hlt : j % s < s := Nat.mod_lt _ hs
      have hsc := chunkStride_le chunk_size overlap
      rw [← hsdef] at hsc
      omega
  · rw [split_text_chunks_closed _ _ _ (by norm_num : (0 : Nat) < 100)]
    simp only [List.length_map, List.length_range, List.length_replicate]
    decide

/-- Witness for C5 at concrete inputs. -/
theorem split_text_chunks_covers_witness :
    1 ≤ chunkStride 2 0 ∧
    (∀ j < (['a', 'b', 'c'] : List Char).length,
      ∃ c ∈ split_text_chunks ['a', 'b', 'c'] 2 0,
        c.index * chunkStride 2 0 ≤ j ∧
        j < c.index * chunkStride 2 0 + 2) ∧
    1 < (split_text_chunks (List.replicate 200 'a') 100 100).length :=
  split_text_chunks_covers ['a', 'b', 'c'] 2 0 (by decide)

/-- C6 counterexample: `execute_chunk` on the text "aaaa" with
`chunk_size = 2`, `overlap = 0` returns the one-key record
`{"chunks": [...]}` — not the sequence of `{text, index}` records
itself. -/
theorem execute_chunk_not_bare_sequence :
    execute_chunk "aaaa" 2 0 =
      .obj [("chunks",
        .arr ((split_text_chunks "aaaa".data 2 0).map chunkValue))] ∧
    execute_chunk "aaaa" 2 0 ≠
      .arr ((split_text_chunks "aaaa".data 2 0).map chunkValue) :=
  ⟨rfl, fun h => Value.noConfusion h⟩

/-- C6 (amended): the Chunk step's result — written by the executor into
the context under the step's name — is a record with the single key
`"chunks"` bound to the ordered sequence of `{text, index}` records,
with index starting at 0 and counting up. -/
theorem execute_chunk_returns_wrapped (resolvedText : String)
    (chunk_size overlap : Nat) (h : 0 < chunk_size) :
    execute_chunk resolvedText chunk_size overlap =
      .obj [("chunks", .arr
        ((List.range
            ((resolvedText.data.length + chunkStride chunk_size overlap
                - 1) / chunkStride chunk_size overlap)).map
          (fun k =>
            .obj [("text", .strVal
                ⟨(resolvedText.data.drop
                    (k * chunkStride chunk_size overlap)).take
                  chunk_size⟩),
              ("index", .intVal k)])))] := by
  unfold execute_chunk
  rw [split_text_chunks_closed _ _ _ h]
  rw [List.map_map]
  rfl

/-- Witness for the amended C6 statement at a concrete input. -/
theorem execute_chunk_returns_wrapped_witness :
    execute_chunk "ab" 1 0 =
      .obj [("chunks", .arr
        ((List.range
            (("ab".data.length + chunkStride 1 0 - 1) /
              chunkStride 1 0)).map
          (fun k =>
            .obj [("text", .strVal
                ⟨("ab".data.drop (k * chunkStride 1 0)).take 1⟩),
              ("index", .intVal k)])))] :=
  execute_chunk_returns_wrapped "ab" 1 0 (by decide)

/-! ### Store helper lemmas -/

theorem getData_append_lt (ctxs : List Dict) (d : Dict) (i : Nat)
    (h : i < ctxs.length) :
    getData ⟨ctxs ++ [d]⟩ i = getData ⟨ctxs⟩ i := by
  unfold getData
  simp only [List.getD_eq_getElem?_getD]
  rw [List.getElem?_append, if_pos h]

theorem getData_append_self (ctxs : List Dict) (d : Dict) :
    getData ⟨ctxs ++ [d]⟩ ctxs.length = d := by
  unfold getData
  simp only [List.getD_eq_getElem?_getD]
  rw [List.getElem?_concat_length]
  rfl

theorem getData_set_ne (ctxs : List Dict) (d : Dict) (i j : Nat)
    (h : i ≠ j) :
    getData ⟨ctxs.set i d⟩ j = getData ⟨ctxs⟩ j := by
  unfold getData
  simp only [List.getD_eq_getElem?_getD]
  rw [List.getElem?_set_ne h]

/-- First-wins lookup over an appended dict: the front (overriding) part
shadows the back. -/
theorem dictLookup_append (extra d : Dict) (k : String) :
    dictLookup (extra ++ d) k =
      match dictLookup extra k with
      | some v => some v
      | none => dictLookup d k := by
  induction extra with
  | nil => rfl
  | cons p rest ih =>
      obtain ⟨k', v⟩ := p
      by_cases hk : k' = k
      · simp [dictLookup, hk]
      · simp only [List.cons_append, dictLookup, if_neg hk]
        exact ih

/-- C7: context isolation.  `child(extra)` yields a fresh context whose
dict is a value-copy of the parent's current dict overlaid with `extra`
(extra shadows same-named parent entries); with `C1 = P.child({item: x})`
and `C2 = P.child({item: y})`, `C1` still binds `item` to `x` after `C2`
was created, `set_result` on `C1` is invisible through `C2` and `P`, and
`set_result` on `P` after the children were created is invisible through
`C1` and `C2`. -/
theorem context_isolation (s : Store) (p : Nat) (hp : p < s.ctxs.length)
    (x y : Value) (extra : Dict)
    (s1 : Store) (c1 : Nat)
    (h1 : childCtx s p [("item", x)] = (s1, c1))
    (s2 : Store) (c2 : Nat)
    (h2 : childCtx s1 p [("item", y)] = (s2, c2)) :
    (getData (childCtx s p extra).1 (childCtx s p extra).2 =
        extra ++ getData s p) ∧
    (∀ k, dictLookup (extra ++ getData s p) k =
        match dictLookup extra k with
        | some v => some v
        | none => dictLookup (getData s p) k) ∧
    (getData s2 c1 = ("item", x) :: getData s p) ∧
    (dictLookup (getData s2 c1) "item" = some x) ∧
    (∀ n v s3, setResult s2 c1 n v = Except.ok s3 →
        getData s3 c2 = getData s2 c2 ∧ getData s3 p = getData s2 p) ∧
    (∀ n v s3, setResult s2 p n v = Except.ok s3 →
        getData s3 c1 = getData s2 c1 ∧ getData s3 c2 = getData s2 c2) := by
  unfold childCtx at h1 h2
  injection h1 with hs1 hc1
  subst hs1
  subst hc1
  injection h2 with hs2 hc2
  subst hs2
  subst hc2
  simp only [List.singleton_append]
  have hlen1 :
      (s.ctxs ++ [("item", x) :: getData s p]).length =
        s.ctxs.length + 1 := by simp
  have hget1 : getData ⟨s.ctxs ++ [("item", x) :: getData s p]⟩ p =
      getData s p := getData_append_lt s.ctxs _ p hp
  have hgetc1 :
      getData ⟨(s.ctxs ++ [("item", x) :: getData s p]) ++
          [("item", y) ::
            getData ⟨s.ctxs ++ [("item", x) :: getData s p]⟩ p]⟩
        s.ctxs.length = ("item", x) :: getData s p := by
    rw [getData_append_lt _ _ _ (by omega), getData_append_self]
  refine ⟨?_, fun k => dictLookup_append extra (getData s p) k, ?_, ?_,
    ?_, ?_⟩
  · unfold childCtx
    exact getData_append_self s.ctxs _
  · exact hgetc1
  · rw [hgetc1]
    simp [dictLookup]
  · intro n v s3 h3
    simp only [setResult, List.singleton_append] at h3
    split at h3
    · exact absurd h3 (by simp)
    · injection h3 with hs3
      subst hs3
      constructor
      · refine getData_set_ne _ _ _ _ ?_
        simp only [List.length_append, List.length_cons,
          List.length_singleton]
        omega
      · exact getData_set_ne _ _ _ _ (by omega)
  · intro n v s3 h3
    simp only [setResult, List.singleton_append] at h3
    split at h3
    · exact absurd h3 (by simp)
    · injection h3 with hs3
      subst hs3
      constructor
      · exact getData_set_ne _ _ _ _ (by omega)
      · refine getData_set_ne _ _ _ _ ?_
        simp only [List.length_append, List.length_cons,
          List.length_singleton]
        omega

/-- Witness for C7: a parent store holding only the root context with
`input`, children created with `item = 1` and `item = 2`, a write into
the first child and a write into the parent. -/
theorem context_isolation_witness :
    (dictLookup
        (getData ⟨[[("input", Value.intVal 0)],
          [("item", Value.intVal 1), ("input", Value.intVal 0)],
          [("item", Value.intVal 2), ("input", Value.intVal 0)]]⟩ 1)
        "item" = some (Value.intVal 1)) ∧
    (getData ⟨[[("input", Value.intVal 0)],
          [("r", Value.intVal 9), ("item", Value.intVal 1),
            ("input", Value.intVal 0)],
          [("item", Value.intVal 2), ("input", Value.intVal 0)]]⟩ 2 =
        getData ⟨[[("input", Value.intVal 0)],
          [("item", Value.intVal 1), ("input", Value.intVal 0)],
          [("item", Value.intVal 2), ("input", Value.intVal 0)]]⟩ 2 ∧
      getData ⟨[[("input", Value.intVal 0)],
          [("r", Value.intVal 9), ("item", Value.intVal 1),
            ("input", Value.intVal 0)],
          [("item", Value.intVal 2), ("input", Value.intVal 0)]]⟩ 0 =
        getData ⟨[[("input", Value.intVal 0)],
          [("item", Value.intVal 1), ("input", Value.intVal 0)],
          [("item", Value.intVal 2), ("input", Value.intVal 0)]]⟩ 0) ∧
    (getData ⟨[[("w", Value.intVal 7), ("input", Value.intVal 0)],
          [("item", Value.intVal 1), ("input", Value.intVal 0)],
          [("item", Value.intVal 2), ("input", Value.intVal 0)]]⟩ 1 =
        getData ⟨[[("input", Value.intVal 0)],
          [("item", Value.intVal 1), ("input", Value.intVal 0)],
          [("item", Value.intVal 2), ("input", Value.intVal 0)]]⟩ 1 ∧
      getData ⟨[[("w", Value.intVal 7), ("input", Value.intVal 0)],
          [("item", Value.intVal 1), ("input", Value.intVal 0)],
          [("item", Value.intVal 2), ("input", Value.intVal 0)]]⟩ 2 =
        getData ⟨[[("input", Value.intVal 0)],
          [("item", Value.intVal 1), ("input", Value.intVal 0)],
          [("item", Value.intVal 2), ("input", Value.intVal 0)]]⟩ 2) := by
  have h := context_isolation ⟨[[("input", Value.intVal 0)]]⟩ 0
    (by decide) (Value.intVal 1) (Value.intVal 2) [] _ _ rfl _ _ rfl
  exact ⟨h.2.2.2.1,
    h.2.2.2.2.1 "r" (Value.intVal 9) _ rfl,
    h.2.2.2.2.2 "w" (Value.intVal 7) _ rfl⟩

/-- C8 counterexample: with source `"ab"`, empty summary and zero
extracted keyphrases, `_evaluate_summarization` returns score `0.0`,
while the claimed formula `0.5 * qa_score + 0.5 * conciseness` (with
`qa_score = 0` for zero keyphrases and `conciseness =
1 - min(len(summary), len(source)) / len(source) = 1`) evaluates to
`1/2`. -/
theorem evaluate_summarization_formula_false :
    (evaluate_summarization "ab" "" [] [] []).score = 0 ∧
    ((1 : ℚ) / 2 * 0 + 1 / 2 *
        (1 - (min (String.length "") (String.length "ab") : ℚ) /
          (String.length "ab" : ℚ)) = 1 / 2) ∧
    (evaluate_summarization "ab" "" [] [] []).score ≠
      1 / 2 * 0 + 1 / 2 *
        (1 - (min (String.length "") (String.length "ab") : ℚ) /
          (String.length "ab" : ℚ)) := by
  have h0 : String.length "" = 0 := rfl
  have h2 : String.length "ab" = 2 := rfl
  have hscore : (evaluate_summarization "ab" "" [] [] []).score = 0 := rfl
  refine ⟨hscore, ?_, ?_⟩
  · rw [h0, h2]
    norm_num
  · rw [hscore, h0, h2]
    norm_num

/-- C8 (amended): with the three structured LLM responses injected, the
summarization strategy returns the flat score `0.0` whenever the
responses yield no keyphrases or no questions (the conciseness component
is reported but not blended in), and otherwise returns
`0.5 * qa_score + 0.5 * conciseness` rounded to 4 decimal places, with
`qa_score = correct / total` over the generated questions and
`conciseness = 1 - min(len(summary), len(source)) / (len(source) +
1e-10)` (exactly `1.0` when the source is empty). -/
theorem evaluate_summarization_score (source summary : String)
    (keyphrases questions : List String)
    (answers : List (Option String)) :
    (keyphrases = [] →
        evaluate_summarization source summary keyphrases questions
            answers =
          ⟨0, 0, compute_conciseness source summary, 0, 0, [], [], []⟩) ∧
    (keyphrases ≠ [] → questions = [] →
        evaluate_summarization source summary keyphrases questions
            answers =
          ⟨0, 0, compute_conciseness source summary, 0, 0, keyphrases,
            [], []⟩) ∧
    (keyphrases ≠ [] → questions ≠ [] →
        evaluate_summarization source summary keyphrases questions
            answers =
          ⟨pyRound4
              (((answers.filter (fun a => a = some "YES")).length : ℚ) /
                  questions.length * (1 / 2) +
                compute_conciseness source summary * (1 / 2)),
            pyRound4
              (((answers.filter (fun a => a = some "YES")).length : ℚ) /
                questions.length),
            pyRound4 (compute_conciseness source summary),
            questions.length,
            (answers.filter (fun a => a = some "YES")).length,
            keyphrases, questions, answers⟩) ∧
    (source.length = 0 → compute_conciseness source summary = 1) ∧
    (source.length ≠ 0 → compute_conciseness source summary =
        1 - (min summary.length source.length : ℚ) /
          ((source.length : ℚ) + 1 / 10 ^ 10)) := by
  refine ⟨?_, ?_, ?_, ?_, ?_⟩
  · intro hkp
    simp [evaluate_summarization, hkp]
  · intro hkp hq
    simp [evaluate_summarization, hkp, hq]
  · intro hkp hq
    have hlen : 0 < questions.length := List.length_pos.mpr hq
    simp only [evaluate_summarization, if_neg hkp, if_neg hq, hlen,
      if_pos]
  · intro hsrc
    simp [compute_conciseness, hsrc]
  · intro hsrc
    simp [compute_conciseness, hsrc, epsTiny]

/-- Witness for the amended C8 statement at concrete inputs: one
keyphrase, three questions, one YES answer; plus the empty-source
conciseness case. -/
theorem evaluate_summarization_score_witness :
    evaluate_summarization "abcd" "ab" ["k"] ["q1", "q2", "q3"]
        [some "YES", some "NO", some "NO"] =
      ⟨pyRound4
          ((([some "YES", some "NO", some "NO"].filter
                (fun a => a = some "YES")).length : ℚ) /
              (["q1", "q2", "q3"] : List String).length * (1 / 2) +
            compute_conciseness "abcd" "ab" * (1 / 2)),
        pyRound4
          ((([some "YES", some "NO", some "NO"].filter
              (fun a => a = some "YES")).length : ℚ) /
            (["q1", "q2", "q3"] : List String).length),
        pyRound4 (compute_conciseness "abcd" "ab"),
        (["q1", "q2", "q3"] : List String).length,
        ([some "YES", some "NO", some "NO"].filter
          (fun a => a = some "YES")).length,
        ["k"], ["q1", "q2", "q3"],
        [some "YES", some "NO", some "NO"]⟩ ∧
    compute_conciseness "" "x" = 1 :=
  ⟨(evaluate_summarization_score "abcd" "ab" ["k"] ["q1", "q2", "q3"]
      [some "YES", some "NO", some "NO"]).2.2.1 (by decide) (by decide),
    (evaluate_summarization_score "" "x" [] [] []).2.2.2.1 rfl⟩

/-- Every step result the executor loop accumulates carries no cost. -/
theorem runStepsAux_cost_none (exec : VStep → Dict → Except PyErr Value) :
    ∀ (steps : List VStep) (ctx : Dict) (acc : List StepResultM)
      (last : Value),
      (∀ r ∈ acc, r.cost_usd = none) →
      ∀ r ∈ (runStepsAux exec steps ctx acc last).2.1,
        r.cost_usd = none := by
  intro steps
  induction steps with
  | nil => intro ctx acc last hacc; exact hacc
  | cons s rest ih =>
      intro ctx acc last hacc
      simp only [runStepsAux]
      split
      · exact hacc
      · split
        · exact hacc
        · refine ih _ _ _ ?_
          intro r hr
          rcases List.mem_append.mp hr with h | h
          · exact hacc r h
          · simp at h
            rw [h]

/-- C10: every successful `run_pipeline` run returns
`total_cost_usd = 0.0` — the cost accumulator is initialised to `0.0`
and never incremented — and no step result carries a per-step cost (the
loop never requests one from `execute_prompt`). -/
theorem run_pipeline_cost_zero (exec : VStep → Dict → Except PyErr Value)
    (inputConforms : Bool) (definition : PipelineDefinition)
    (input_data : Value) (res : PipelineResultM)
    (h : run_pipeline exec inputConforms definition input_data =
      .ok res) :
    res.total_cost_usd = 0 ∧ ∀ r ∈ res.step_results, r.cost_usd = none := by
  unfold run_pipeline at h
  split at h
  · split at h
    · exact absurd h (by simp)
    · rename_i heq
      injection h with hres
      subst hres
      refine ⟨rfl, ?_⟩
      intro r hr
      have := runStepsAux_cost_none exec definition.steps
        [("input", input_data)] [] .null (by intro r hr; cases hr)
      rw [heq] at this
      exact this r hr
  · exact absurd h (by simp)

/-- Witness for C10: a one-step pipeline whose step succeeds. -/
theorem run_pipeline_cost_zero_witness :
    (⟨Value.null, [⟨"t", Value.null, none⟩], 0⟩ :
        PipelineResultM).total_cost_usd = 0 ∧
    ∀ r ∈ (⟨Value.null, [⟨"t", Value.null, none⟩], 0⟩ :
        PipelineResultM).step_results, r.cost_usd = none :=
  run_pipeline_cost_zero (fun _ _ => .ok Value.null) true
    ⟨Value.null, [VStep.transform "t" none]⟩ Value.null
    ⟨Value.null, [⟨"t", Value.null, none⟩], 0⟩ rfl

/-- Discriminator: is this error a `StepExecutionError` carrying the
given step name? -/
def isStepExecErrNamed (e : PyErr) (n : String) : Bool :=
  match e with
  | .stepExecutionError m _ _ => m = n
  | _ => false

/-- C9 (amended): a step failure still aborts the run immediately — the
loop stops with the context and accumulated results unchanged (the
failing step's result is never written), the steps after the failing one
are irrelevant to the outcome, and no `PipelineResult` is returned — but
only failures that are not already `PipelineError` instances are wrapped
in a `StepExecutionError` naming the failing step and chaining the
cause; a `PipelineError` raised by a step executor (e.g. an
`ExpressionError`) is re-raised unchanged and need not name the step. -/
theorem run_pipeline_failfast (exec : VStep → Dict → Except PyErr Value)
    (s : VStep) (rest rest2 : List VStep) (ctx : Dict)
    (acc : List StepResultM) (last : Value) (e : PyErr)
    (hfail : exec s ctx = .error e) :
    runStepsAux exec (s :: rest) ctx acc last =
      (ctx, acc, .error (wrapStepError s.name e)) ∧
    runStepsAux exec (s :: rest) ctx acc last =
      runStepsAux exec (s :: rest2) ctx acc last ∧
    (∀ m, e = .otherError m →
        wrapStepError s.name e =
          .stepExecutionError s.name m (some (.otherError m))) ∧
    (e.isPipelineError = true → wrapStepError s.name e = e) ∧
    (∀ (schema input_data : Value),
        ctx = [("input", input_data)] → acc = [] →
        run_pipeline exec true ⟨schema, s :: rest⟩ input_data =
          .error (wrapStepError s.name e)) := by
  have h1 : runStepsAux exec (s :: rest) ctx acc last =
      (ctx, acc, .error (wrapStepError s.name e)) := by
    simp only [runStepsAux, hfail]
  refine ⟨h1, ?_, ?_, ?_, ?_⟩
  · rw [h1]
    simp only [runStepsAux, hfail]
  · intro m hm
    subst hm
    rfl
  · intro hpe
    simp [wrapStepError, hpe]
  · intro schema input_data hctx hacc
    subst hctx
    subst hacc
    unfold run_pipeline
    rw [if_pos rfl]
    have h2 : runStepsAux exec (s :: rest) [("input", input_data)] []
        Value.null =
        ([("input", input_data)], [],
          .error (wrapStepError s.name e)) := by
      simp only [runStepsAux, hfail]
    rw [h2]

/-- Witness for the amended C9 statement: a transform step `"t"` whose
execution raises a non-`PipelineError` exception. -/
theorem run_pipeline_failfast_witness :
    runStepsAux (fun _ _ => Except.error (PyErr.otherError "io fail"))
        [VStep.transform "t" none] [("input", Value.null)] []
        Value.null =
      ([("input", Value.null)], [],
        Except.error (wrapStepError "t" (PyErr.otherError "io fail"))) ∧
    wrapStepError "t" (PyErr.otherError "io fail") =
      PyErr.stepExecutionError "t" "io fail"
        (some (PyErr.otherError "io fail")) :=
  ⟨(run_pipeline_failfast
      (fun _ _ => Except.error (PyErr.otherError "io fail"))
      (VStep.transform "t" none) [] [] [("input", Value.null)] []
      Value.null (PyErr.otherError "io fail") rfl).1,
    (run_pipeline_failfast
      (fun _ _ => Except.error (PyErr.otherError "io fail"))
      (VStep.transform "t" none) [] [] [("input", Value.null)] []
      Value.null (PyErr.otherError "io fail") rfl).2.2.1 "io fail" rfl⟩

/-- C9 counterexample: a pipeline whose transform step `"t"` raises an
`ExpressionError` — a `PipelineError` subclass, exactly what
`evaluate()` raises on a bad expression.  `run_pipeline` surfaces the
`ExpressionError` itself, which is not a `StepExecutionError` and does
not name the failing step, refuting "the error surfaced to the caller is
wrapped with (names) the failing step's name". -/
theorem run_pipeline_error_not_wrapped :
    run_pipeline (fun _ _ => .error (.expressionError "boom")) true
        ⟨Value.null, [VStep.transform "t" none]⟩ Value.null =
      .error (.expressionError "boom") ∧
    (PyErr.expressionError "boom").isPipelineError = true ∧
    isStepExecErrNamed (.expressionError "boom") "t" = false :=
  ⟨rfl, rfl, rfl⟩

/-! ### The reference walk, step by step -/

/-- The diagnostics one loop iteration of `_check_references` produces
for step `s` when the running available set is `available` (the loop body
before `available.add(step.name)`). -/
def stepIterDiags (full : List VStep) (s : VStep)
    (available : Finset String) (scopePath : String) : List Diagnostic :=
  stepArgDiags s available ++
    (match s with
     | .prompt n args t =>
         checkTemplate n t ++ crossCheckTemplateArgs n args t
     | _ => []) ++
    (match s with
     | .evaluateStep n args strat => checkEvaluateArguments n args strat
     | _ => []) ++
    (match s with
     | .forEach n args nested =>
         checkForEachTargetType n args full ++
           checkReferencesAux nested nested
             (available ∪ {"item", "item_index"})
             (nestedScopePath scopePath n)
     | _ => [])

/-- One unfolding of the walk: iteration on the head step, then the rest
with the head's name added. -/
theorem checkReferencesAux_cons (full : List VStep) (s : VStep)
    (rest : List VStep) (available : Finset String) (scopePath : String) :
    checkReferencesAux full (s :: rest) available scopePath =
      stepIterDiags full s available scopePath ++
        checkReferencesAux full rest (insert s.name available) scopePath := by
  cases s <;> simp [checkReferencesAux, stepIterDiags]

theorem checkReferencesAux_nil (full : List VStep)
    (available : Finset String) (scopePath : String) :
    checkReferencesAux full [] available scopePath = [] := by
  simp [checkReferencesAux]

/-- The names of the first `i` steps of a scope. -/
def takeNames (steps : List VStep) (i : Nat) : Finset String :=
  ((steps.take i).map VStep.name).toFinset

theorem takeNames_zero (steps : List VStep) : takeNames steps 0 = ∅ := rfl

theorem takeNames_cons_succ (s : VStep) (rest : List VStep) (i : Nat) :
    takeNames (s :: rest) (i + 1) = insert s.name (takeNames rest i) := by
  simp [takeNames]

/-- Closed form of the reference walk: the step at position `i` is
checked against the scope's parent-available set united with the names of
the steps strictly before `i` in this scope. -/
theorem checkReferencesAux_closed (full : List VStep) :
    ∀ (steps : List VStep) (available : Finset String)
      (scopePath : String),
      checkReferencesAux full steps available scopePath =
        ((List.range steps.length).map (fun i =>
          match steps.get? i with
          | some s =>
              stepIterDiags full s (available ∪ takeNames steps i)
                scopePath
          | none => [])).flatten := by
  intro steps
  induction steps with
  | nil =>
      intro available scopePath
      simp [checkReferencesAux_nil]
  | cons s rest ih =>
      intro available scopePath
      rw [checkReferencesAux_cons, ih (insert s.name available) scopePath]
      rw [List.length_cons, List.range_succ_eq_map]
      simp only [List.map_cons, List.map_map, List.flatten_cons]
      congr 1
      · simp [takeNames_zero]
      · refine congrArg _ (List.map_congr_left ?_)
        intro i _
        simp only [Function.comp_apply, Nat.succ_eq_add_one,
          List.get?_cons_succ, takeNames_cons_succ]
        congr 2
        rw [Finset.union_insert, Finset.insert_union]

/-- Membership in the first-`j`-names set. -/
theorem mem_takeNames (steps : List VStep) (j : Nat) (m : String) :
    m ∈ takeNames steps j ↔
      ∃ i, i < j ∧ ∃ s, steps.get? i = some s ∧ s.name = m := by
  induction steps generalizing j with
  | nil =>
      simp [takeNames]
  | cons s rest ih =>
      cases j with
      | zero => simp [takeNames]
      | succ j =>
          rw [takeNames_cons_succ, Finset.mem_insert, ih]
          constructor
          · rintro (rfl | ⟨i, hij, t, hget, rfl⟩)
            · exact ⟨0, Nat.succ_pos _, s, rfl, rfl⟩
            · exact ⟨i + 1, by omega, t, by simpa using hget, rfl⟩
          · rintro ⟨i, hij, t, hget, rfl⟩
            cases i with
            | zero =>
                left
                simp only [List.get?_cons_zero, Option.some.injEq] at hget
                rw [hget]
            | succ i =>
                right
                exact ⟨i, by omega, t, by simpa using hget, rfl⟩

theorem filterMap_if_not_mem (l : List String) (A : Finset String)
    (f : String → Diagnostic) :
    l.filterMap (fun r => if r ∈ A then none else some (f r)) =
      (l.filter (fun r => decide (r ∉ A))).map f := by
  induction l with
  | nil => rfl
  | cons a l ih =>
      by_cases h : a ∈ A
      · simp [List.filterMap_cons, List.filter_cons, h, ih]
      · simp [List.filterMap_cons, List.filter_cons, h, ih]

/-- C2: the reference-resolution walk checks the step at position `i` of
a scope against exactly the scope's inherited set united with the names
of the strictly earlier steps of that scope (inherited set = `{input}`
at top level, and the parent's current set united with
`{item, item_index}` inside a ForEach); a parsed expression yields
exactly one error diagnostic per extracted root reference missing from
that set, naming the reference (the missing references are listed once
each, sorted); a step's own name is never part of the set its references
are checked against (so self- and forward-references are errors); and a
ForEach iteration validates its nested steps against the current set
united with `{item, item_index}`, after which the parent walk continues
having added only the ForEach's own name — a name appears in a later
step's set only if it is inherited or is the name of a strictly earlier
step of that same scope, never a nested step's name. -/
theorem check_references_walk_correct (parentAvail : Finset String)
    (steps : List VStep) (scopePath : String) :
    checkReferences steps parentAvail scopePath =
      ((List.range steps.length).map (fun i =>
        match steps.get? i with
        | some s =>
            stepIterDiags steps s (parentAvail ∪ takeNames steps i)
              scopePath
        | none => [])).flatten ∧
    (∀ j m, m ∈ parentAvail ∪ takeNames steps j ↔
        m ∈ parentAvail ∨
          ∃ i, i < j ∧ ∃ s, steps.get? i = some s ∧ s.name = m) ∧
    (∀ (n : String) (ast : JNode) (A : Finset String),
        argRefDiags n ast A =
          (((extractRootReferences ast).sort (· ≤ ·)).filter
              (fun r => decide (r ∉ A))).map
            (fun r =>
              ⟨.error, n, .refNotAvailable r (A.sort (· ≤ ·)),
                "arguments"⟩) ∧
        (((extractRootReferences ast).sort (· ≤ ·)).filter
            (fun r => decide (r ∉ A))).Nodup ∧
        (∀ r, r ∈ ((extractRootReferences ast).sort (· ≤ ·)).filter
              (fun r => decide (r ∉ A)) ↔
            r ∈ extractRootReferences ast ∧ r ∉ A)) ∧
    (∀ i s, steps.get? i = some s → (steps.map VStep.name).Nodup →
        s.name ∉ parentAvail →
        s.name ∉ parentAvail ∪ takeNames steps i) ∧
    (∀ (full : List VStep) (n : String) (args : ParsedExpr)
        (nested : List VStep) (A : Finset String) (p : String),
        stepIterDiags full (.forEach n args nested) A p =
          stepArgDiags (.forEach n args nested) A ++
            (checkForEachTargetType n args full ++
              checkReferencesAux nested nested
                (A ∪ {"item", "item_index"}) (nestedScopePath p n))) := by
  refine ⟨?_, ?_, ?_, ?_, ?_⟩
  · unfold checkReferences
    exact checkReferencesAux_closed steps steps parentAvail scopePath
  · intro j m
    rw [Finset.mem_union, mem_takeNames]
  · intro n ast A
    refine ⟨?_, ?_, ?_⟩
    · unfold argRefDiags
      exact filterMap_if_not_mem _ A _
    · exact (Finset.sort_nodup _ _).filter _
    · intro r
      rw [List.mem_filter, Finset.mem_sort, decide_eq_true_eq]
  · intro i s hget hnodup hpar
    rw [Finset.mem_union]
    rintro (h | h)
    · exact hpar h
    · obtain ⟨i2, hi2, t, hget2, hname⟩ := (mem_takeNames steps i s.name).mp h
      obtain ⟨hilen, hgeti⟩ := List.get?_eq_some.mp hget
      obtain ⟨hi2len, hgeti2⟩ := List.get?_eq_some.mp hget2
      have hmapnodup := hnodup
      have hne : (⟨i2, hi2len⟩ : Fin steps.length) ≠ ⟨i, hilen⟩ := by
        intro hcontra
        have := Fin.mk.injEq i2 hi2len i hilen ▸ hcontra
        simp at this
        omega
      have hgm1 : (steps.map VStep.name).get
          ⟨i2, by simpa using hi2len⟩ = t.name := by
        simp only [List.get_eq_getElem, List.getElem_map]
        exact congrArg VStep.name hgeti2
      have hgm2 : (steps.map VStep.name).get
          ⟨i, by simpa using hilen⟩ = s.name := by
        simp only [List.get_eq_getElem, List.getElem_map]
        exact congrArg VStep.name hgeti
      have hinj := List.Nodup.get_inj_iff hmapnodup
        (i := ⟨i2, by simpa using hi2len⟩) (j := ⟨i, by simpa using hilen⟩)
      rw [hgm1, hgm2, hname] at hinj
      have := hinj.mp rfl
      simp at this
      omega
  · intro full n args nested A p
    simp [stepIterDiags]

/-- Witness for C2: in a two-step top-level scope, the second step's own
name is absent from the set its references are checked against. -/
theorem check_references_walk_correct_witness :
    ("b" : String) ∉ ({"input"} : Finset String) ∪
      takeNames [VStep.transform "a" none, VStep.transform "b" none] 1 :=
  (check_references_walk_correct {"input"}
      [VStep.transform "a" none, VStep.transform "b" none] "").2.2.2.1
    1 (VStep.transform "b" none) rfl (by decide) (by decide)

/-! ### Validator soundness for the executor's scoping -/

theorem execTraceAux_cons (s : VStep) (rest : List VStep)
    (dom : Finset String) :
    execTraceAux (s :: rest) dom =
      ((s, dom) ::
        (match s with
         | .forEach _ _ nested =>
             execTraceAux nested (dom ∪ {"item", "item_index"})
         | _ => [])) ++
        execTraceAux rest (insert s.name dom) := by
  cases s <;> simp [execTraceAux]

theorem mem_argRefDiags (n : String) (ast : JNode) (A : Finset String)
    (r : String) (h1 : r ∈ extractRootReferences ast) (h2 : r ∉ A) :
    (⟨.error, n, .refNotAvailable r (A.sort (· ≤ ·)), "arguments"⟩ :
        Diagnostic) ∈ argRefDiags n ast A := by
  unfold argRefDiags
  refine List.mem_filterMap.mpr ⟨r, (Finset.mem_sort _).mpr h1, ?_⟩
  rw [if_neg h2]

theorem stepArgDiags_eq_of_parsed (s : VStep) (A : Finset String)
    (ast : JNode) (hattr : s.argumentsAttr = some (some ast)) :
    stepArgDiags s A = argRefDiags s.name ast A := by
  simp [stepArgDiags, hattr, parseDiags]

/-- If the reference walk over a scope produced no error diagnostics,
every step in that scope's executor trace reads only names present in
its context's key set. -/
theorem refsOk_of_noErrors :
    ∀ (full steps : List VStep) (avail : Finset String) (path : String),
      (∀ dg ∈ checkReferencesAux full steps avail path,
        dg.severity ≠ Severity.error) →
      ∀ p ∈ execTraceAux steps avail, (p.1).argRefs ⊆ p.2
  | _, [], avail, _, _ => by
      intro p hp
      simp [execTraceAux] at hp
  | full, s :: rest, avail, path, h => by
      rw [checkReferencesAux_cons] at h
      intro p hp
      rw [execTraceAux_cons] at hp
      rcases List.mem_append.mp hp with hp1 | hp2
      · rcases List.mem_cons.mp hp1 with rfl | hpn
        · intro r hr
          simp only at hr ⊢
          by_contra hnot
          rcases hattr : s.argumentsAttr with _ | expr
          · simp only [VStep.argRefs, hattr] at hr
            exact absurd hr (Finset.not_mem_empty r)
          · rcases expr with _ | ast
            · simp only [VStep.argRefs, hattr] at hr
              exact absurd hr (Finset.not_mem_empty r)
            · simp only [VStep.argRefs, hattr] at hr
              have hdiag := mem_argRefDiags s.name ast avail r hr hnot
              have hmem : (⟨.error, s.name,
                  .refNotAvailable r (avail.sort (· ≤ ·)),
                  "arguments"⟩ : Diagnostic) ∈
                    stepIterDiags full s avail path := by
                unfold stepIterDiags
                refine List.mem_append_left _
                  (List.mem_append_left _ (List.mem_append_left _ ?_))
                rw [stepArgDiags_eq_of_parsed s avail ast hattr]
                exact hdiag
              exact h _ (List.mem_append_left _ hmem) rfl
        · cases s with
          | forEach n args nested =>
              have h2 : ∀ dg ∈ checkReferencesAux nested nested
                  (avail ∪ {"item", "item_index"})
                  (nestedScopePath path n),
                  dg.severity ≠ Severity.error := by
                intro dg hdg
                apply h
                refine List.mem_append_left _ ?_
                simp only [stepIterDiags, List.mem_append]
                exact Or.inr (Or.inr hdg)
              exact refsOk_of_noErrors nested nested
                (avail ∪ {"item", "item_index"})
                (nestedScopePath path n) h2 p hpn
          | findFiles a b c => simp at hpn
          | readFile a b => simp at hpn
          | transform a b => simp at hpn
          | chunk a b c d => simp at hpn
          | prompt a b c => simp at hpn
          | evaluateStep a b c => simp at hpn
      · exact refsOk_of_noErrors full rest (insert s.name avail) path
          (fun dg hdg => h dg (List.mem_append_right _ hdg)) p hp2
termination_by _ steps _ _ _ => sizeOf steps

/-- C1: whenever `validate_pipeline` reports `ok = true`, every step the
executor can reach — at top level or nested in any ForEach, in any
iteration, for any conforming input — reads only root references that
are keys of the context dict it executes against: the validator's static
availability model and the executor's sequential-write scoping coincide,
so no "reference not available" situation can arise at runtime. -/
theorem validator_matches_executor_scoping (d : PipelineDefinition)
    (hok : (validate_pipeline d).ok = true) :
    ∀ p ∈ execTrace d, (p.1).argRefs ⊆ p.2 := by
  have hno : ∀ dg ∈ checkReferencesAux d.steps d.steps {"input"} "",
      dg.severity ≠ Severity.error := by
    intro dg hdg hsev
    unfold validate_pipeline ValidationResult.ok at hok
    rw [Bool.not_eq_eq_eq_not, Bool.not_true, List.any_eq_false] at hok
    have := hok dg (List.mem_append_right _ hdg)
    rw [hsev] at this
    simp at this
  exact refsOk_of_noErrors d.steps d.steps {"input"} "" hno

/-- Witness for C1: a pipeline that validates ok (a transform reading
`input`, then a ForEach over its result with a nested transform reading
`item`); the nested step's references are contained in its child
context's key set. -/
theorem validator_matches_executor_scoping_witness :
    (VStep.transform "b" (some (.path [.name "item" []]))).argRefs ⊆
      (insert "a" ({"input"} : Finset String)) ∪ {"item", "item_index"} :=
  validator_matches_executor_scoping ⟨Value.null,
      [VStep.transform "a" (some (.path [.name "input" []])),
       VStep.forEach "f" (some (.path [.name "a" []]))
         [VStep.transform "b" (some (.path [.name "item" []]))]]⟩
    (by simp [validate_pipeline, ValidationResult.ok, checkNameUniqueness,
      checkNameUniquenessAux, checkReferences, checkReferencesAux,
      stepArgDiags, parseDiags, argRefDiags, extractRootReferences,
      checkForEachTargetType, nestedScopePath, RESERVED_NAMES,
      stepKindsUpTo, kindsLookup, VStep.name, VStep.kind,
      VStep.argumentsAttr, List.lookup])
    (VStep.transform "b" (some (.path [.name "item" []])),
      (insert "a" ({"input"} : Finset String)) ∪ {"item", "item_index"})
    (by simp [execTrace, execTraceAux, VStep.name])

end AIPipelines
